import Mathlib

/-!
Verification of the Manga-Reader repository's Asset Resolution & Transform
Cache specification and of several frontend behaviours.

The frontend TypeScript (`frontend/src/lib/api/client.ts`,
`frontend/src/lib/services/offline.ts`, the reader route component) is
embedded directly.  The backend Python core described by the specification
(Source Locator, Container Reader, Transform Engine, Cache Store,
Resolution Coordinator) is not part of the available sources, so those
components are modelled from the specification's own words; each such
definition carries a doc comment starting `Modelled from the spec:`.
-/

namespace MangaReader

/-! ## Frontend API client (`frontend/src/lib/api/client.ts`) -/

/-- The constant `API_BASE_URL` from `client.ts`. -/
def apiBaseURL : String := "http://localhost:8000/api"

/-- The options record accepted by `getPageImageUrl` in `client.ts`
(`width?`, `height?`, `quality?`, `thumbnail?`).  An absent or `null`
field is `none`. -/
structure ImageOptions where
  width : Option Int
  height : Option Int
  quality : Option Int
  thumbnail : Option Bool
deriving DecidableEq, Repr

/-- The default (empty) options object `{}`. -/
def ImageOptions.empty : ImageOptions := ⟨none, none, none, none⟩

/-- The `Object.entries(options)` view of an `ImageOptions` record: the fields in
declaration order, each paired with its rendered `toString()` value when
present. -/
def ImageOptions.entries (o : ImageOptions) : List (String × Option String) :=
  [ ("width", o.width.map toString)
  , ("height", o.height.map toString)
  , ("quality", o.quality.map toString)
  , ("thumbnail", o.thumbnail.map (fun b => if b then "true" else "false")) ]

/-- The `forEach` loop of `getPageImageUrl`: append `(key, value)` to the
`URLSearchParams` when the value is defined and non-null. -/
def collectParams (entries : List (String × Option String)) :
    List (String × String) :=
  entries.foldl
    (fun acc kv =>
      match kv.2 with
      | some v => acc ++ [(kv.1, v)]
      | none => acc)
    []

/-- Rendering of `URLSearchParams.toString()` for parameters that need no percent
escaping (all values here are rendered numbers or booleans). -/
def queryToString (ps : List (String × String)) : String :=
  String.intercalate "&" (ps.map fun p => p.1 ++ "=" ++ p.2)

/-- The method `ApiClient.getPageImageUrl` from `client.ts` lines 213–236. -/
def getPageImageUrl (mangaId chapterId pageId : Int) (o : ImageOptions) :
    String :=
  let params := collectParams o.entries
  let query := queryToString params
  let endpoint :=
    "/images/" ++ toString mangaId ++ "/" ++ toString chapterId ++ "/" ++
      toString pageId
  apiBaseURL ++ endpoint ++ (if query = "" then "" else "?" ++ query)

/-- Declarative form of the parameter list: exactly the defined options,
each rendered through `toString`. -/
def definedParams (o : ImageOptions) : List (String × String) :=
  (o.width.map (fun v => ("width", toString v))).toList ++
  (o.height.map (fun v => ("height", toString v))).toList ++
  (o.quality.map (fun v => ("quality", toString v))).toList ++
  (o.thumbnail.map
    (fun b => ("thumbnail", if b then "true" else "false"))).toList

/-! ## Frontend progress fetch (`client.ts` lines 74–106 and 186–195) -/

/-- The `ApiError` class of `client.ts` (the `data` payload is not needed
for the control flow modelled here). -/
structure ApiError where
  message : String
  status : Nat
deriving DecidableEq, Repr

/-- Outcome of the underlying `fetch` inside `ApiClient.request`:
a successful JSON body, an HTTP error response, or a thrown
network-level error. -/
inductive FetchOutcome (T : Type) where
  | success (body : T)
  | httpError (status : Nat) (detail : String)
  | networkFailure (msg : String)
deriving DecidableEq, Repr

/-- The method `ApiClient.request` (lines 74–106): a non-ok response becomes an
`ApiError` carrying the response status; any other thrown error is
wrapped into an `ApiError` with status `0`. -/
def request {T : Type} (out : FetchOutcome T) : Except ApiError T :=
  match out with
  | .success b => .ok b
  | .httpError s d => .error ⟨d, s⟩
  | .networkFailure m => .error ⟨m, 0⟩

/-- The `ReadingProgress` record (from `types.ts`), reduced to the fields
the reader uses. -/
structure ReadingProgress where
  chapter_id : Nat
  page_number : Nat
  zoom_level : Int
deriving DecidableEq, Repr

/-- The method `ApiClient.getMangaProgress` (lines 186–195): return the parsed
progress on success, `null` when the request failed with a 404
`ApiError`, and re-throw every other error. -/
def getMangaProgress (out : FetchOutcome ReadingProgress) :
    Except ApiError (Option ReadingProgress) :=
  match request out with
  | .ok p => .ok (some p)
  | .error e => if e.status = 404 then .ok none else .error e

/-! ## Reader zoom controls (reader route component, lines 108–122) -/

/-- A user zoom action in the reader. -/
inductive ZoomOp where
  | zoomIn
  | zoomOut
  | reset
deriving DecidableEq, Repr

/-- One zoom action: `zoomIn` is `Math.min(zoomLevel * 1.25, 3)`,
`zoomOut` is `Math.max(zoomLevel / 1.25, 0.5)`, `resetZoom` sets `1`. -/
def applyZoom (z : ℚ) : ZoomOp → ℚ
  | .zoomIn => min (z * (5 / 4)) 3
  | .zoomOut => max (z / (5 / 4)) (1 / 2)
  | .reset => 1

/-- The zoom level reached from the initial value `1` after a sequence of
zoom actions. -/
def runZoom (ops : List ZoomOp) : ℚ :=
  ops.foldl applyZoom 1

/-! ## Offline storage (`frontend/src/lib/services/offline.ts`)

IndexedDB compares string keys by their UTF-16 code units, so key strings
are embedded as lists of code units (`List Nat`).  The `pages` object
store is keyed by strings of the form `` `${chapterId}_${pageIndex}` ``
(`savePage`, line 84); `deleteChapter` (lines 100–112) walks a cursor
over ``IDBKeyRange.bound(`${chapterId}_0`, `${chapterId}_￿`)`` and
deletes every key the cursor visits. -/

/-- Code unit of the underscore character `_`. -/
def underscoreCU : Nat := 0x5F

/-- Code unit `￿`, the upper bound used by `deleteChapter`. -/
def maxCU : Nat := 0xFFFF

/-- Decimal digits of `n`, least significant first, as code units
(`'0'` is 48).  Empty for `0`; `Number.prototype.toString` handles `0`
separately in `digitsOf`. -/
def digitsAux : Nat → List Nat
  | 0 => []
  | n + 1 => (48 + (n + 1) % 10) :: digitsAux ((n + 1) / 10)
decreasing_by exact Nat.div_lt_self (Nat.succ_pos n) (by norm_num)

/-- Code units of `n.toString()` for a natural `n`: decimal, most
significant digit first, no leading zeros. -/
def digitsOf (n : Nat) : List Nat :=
  if n = 0 then [48] else (digitsAux n).reverse

/-- Read back a little-endian digit-code list as a number (inverse of
`digitsAux`). -/
def valAux : List Nat → Nat
  | [] => 0
  | d :: ds => (d - 48) + 10 * valAux ds

/-- Read back the code units of a decimal string as a number (inverse of
`digitsOf`). -/
def keyVal (l : List Nat) : Nat := valAux l.reverse

/-- IndexedDB string-key comparison, `a ≤ b`, by code units: a shorter
prefix sorts first, otherwise the first differing unit decides. -/
def lexLe : List Nat → List Nat → Bool
  | [], _ => true
  | _ :: _, [] => false
  | a :: as, b :: bs =>
    if a < b then true else if a = b then lexLe as bs else false

/-- Code units of the page key `` `${chapterId}_${pageIndex}` `` written
by `savePage`. -/
def pageKey (chapterId pageIndex : Nat) : List Nat :=
  digitsOf chapterId ++ underscoreCU :: digitsOf pageIndex

/-- Code units of the lower range bound `` `${chapterId}_0` ``. -/
def rangeLower (chapterId : Nat) : List Nat :=
  digitsOf chapterId ++ [underscoreCU, 48]

/-- Code units of the upper range bound `` `${chapterId}_￿` ``. -/
def rangeUpper (chapterId : Nat) : List Nat :=
  digitsOf chapterId ++ [underscoreCU, maxCU]

/-- Membership in `IDBKeyRange.bound(lower, upper)` (both bounds
inclusive, the default). -/
def inChapterRange (chapterId : Nat) (key : List Nat) : Bool :=
  lexLe (rangeLower chapterId) key && lexLe key (rangeUpper chapterId)

/-- First-match association lookup (an IndexedDB store holds at most one
value per key; `put` replaces, so keys stay unique by construction). -/
def assocFind {α β : Type} [DecidableEq α] : List (α × β) → α → Option β
  | [], _ => none
  | (k, v) :: t, k' => if k = k' then some v else assocFind t k'

/-- A chapter record, reduced to the fields `offline.ts` touches. -/
structure ChapterRec where
  manga_id : Nat
  downloaded : Bool
deriving DecidableEq, Repr

/-- The offline database: the `chapters` store keyed by numeric id and
the `pages` store keyed by code-unit key strings (blobs as byte
lists). -/
structure OfflineState where
  chapters : List (Nat × ChapterRec)
  pages : List (List Nat × List Nat)
deriving DecidableEq, Repr

/-- The method `OfflineStorage.savePage` (line 81–85): `put` the blob under
`` `${chapterId}_${pageIndex}` ``, replacing any previous value. -/
def savePage (st : OfflineState) (chapterId pageIndex : Nat)
    (blob : List Nat) : OfflineState :=
  { st with
    pages := (pageKey chapterId pageIndex, blob) ::
      st.pages.filter fun p => decide (p.1 ≠ pageKey chapterId pageIndex) }

/-- The method `OfflineStorage.getPage` (lines 87–91). -/
def getPage (st : OfflineState) (chapterId pageIndex : Nat) :
    Option (List Nat) :=
  assocFind st.pages (pageKey chapterId pageIndex)

/-- The method `OfflineStorage.deleteChapter` (lines 100–112): delete the chapter
record by key, and delete every page key the bound-range cursor
visits. -/
def deleteChapter (st : OfflineState) (chapterId : Nat) : OfflineState :=
  { chapters := st.chapters.filter fun cr => decide (cr.1 ≠ chapterId)
  , pages := st.pages.filter fun p => !inChapterRange chapterId p.1 }

/-- A concrete offline database used to instantiate the `deleteChapter`
theorem: chapters `1` and `12`, one saved page each. -/
def sampleOffline : OfflineState :=
  savePage (savePage
    ⟨[(1, ⟨4, true⟩), (12, ⟨4, true⟩)], []⟩ 1 0 [5]) 12 0 [7]

/-! ## The Asset Resolution & Transform Cache core

The backend sources are not available, so the components below are
modelled from the specification (sections 3–5).  Byte strings are
`List Nat`; raster codecs are replaced by a minimal executable codec
with one-byte signatures (`1` PNG, `2` JPEG, `3` WebP) followed by
width, height and one value per pixel. -/

/-- Modelled from the spec: `targetEncoding` enum of a `TransformSpec`
(`Original | WebP | JPEG`). -/
inductive Encoding where
  | original
  | webp
  | jpeg
deriving DecidableEq, Repr

/-- Modelled from the spec: `TransformSpec { maxWidth?, maxHeight?,
quality?(1..100), thumbnail, targetEncoding }`, a value type compared
field by field. -/
structure TransformSpec where
  maxWidth : Option Nat
  maxHeight : Option Nat
  quality : Option Nat
  thumbnail : Bool
  targetEncoding : Encoding
deriving DecidableEq, Repr

/-- Modelled from the spec: the default spec `{}` — no resize, default
quality, not a thumbnail, keep the original encoding. -/
def defaultSpec : TransformSpec := ⟨none, none, none, false, .original⟩

/-- Modelled from the spec: the passthrough test of the Transform Engine
— "no resize, no explicit encoding, not a thumbnail". -/
def TransformSpec.isDefault (s : TransformSpec) : Bool :=
  s.maxWidth.isNone && s.maxHeight.isNone && !s.thumbnail &&
    (s.targetEncoding == Encoding.original)

/-- Content type of the codec's one-byte signature. -/
def contentTypeOfMagic (m : Nat) : String :=
  if m = 1 then "image/png"
  else if m = 2 then "image/jpeg"
  else if m = 3 then "image/webp"
  else "application/octet-stream"

/-- Modelled from the spec: the content type is inferred from the raw
bytes' signature, never from a file extension. -/
def sniffContentType (bytes : List Nat) : String :=
  match bytes with
  | m :: _ => contentTypeOfMagic m
  | [] => contentTypeOfMagic 0

/-- A decoded raster image: original signature, dimensions, one value
per pixel. -/
structure RawImage where
  fmt : Nat
  width : Nat
  height : Nat
  pixels : List Nat
deriving DecidableEq, Repr

/-- Modelled from the spec: decoding raster bytes; corrupt data (bad
signature or wrong pixel count) yields no image, never a blank one. -/
def decodeImage : List Nat → Option RawImage
  | m :: w :: h :: px =>
    if (m = 1 ∨ m = 2 ∨ m = 3) ∧ px.length = w * h then some ⟨m, w, h, px⟩
    else none
  | _ => none

/-- Modelled from the spec: re-encoding an image under a signature. -/
def encodeImage (img : RawImage) (magic : Nat) : List Nat :=
  magic :: img.width :: img.height :: img.pixels

/-- Modelled from the spec: the signature to re-encode with —
`Original` keeps the decoded image's own signature. -/
def magicOfEncoding (img : RawImage) : Encoding → Nat
  | .original => img.fmt
  | .webp => 3
  | .jpeg => 2

/-- Modelled from the spec: resize to fit within `mw × mh` preserving
aspect ratio, never upscaling beyond the original `w × h`. -/
def fitDims (w h mw mh : Nat) : Nat × Nat :=
  if w ≤ mw ∧ h ≤ mh then (w, h)
  else if mw * h ≤ mh * w then (mw, h * mw / w)
  else (w * mh / h, mh)

/-- Nearest-neighbour resampling to the requested dimensions. -/
def resample (img : RawImage) (w2 h2 : Nat) : RawImage :=
  ⟨img.fmt, w2, h2,
    (List.range (w2 * h2)).map fun idx =>
      let x := idx % max w2 1
      let y := idx / max w2 1
      let sx := x * img.width / max w2 1
      let sy := y * img.height / max h2 1
      img.pixels.getD (sy * img.width + sx) 0⟩

/-- Modelled from the spec: the fixed small thumbnail box (the spec
leaves the exact box to the implementer; the invariants proved below do
not depend on its value). -/
def thumbBox : Nat := 256

/-- Modelled from the spec: the raster-level transform — thumbnail into
the fixed box, else fit within the requested maxima, both preserving
aspect ratio and never upscaling. -/
def transformImage (img : RawImage) (spec : TransformSpec) : RawImage :=
  if spec.thumbnail then
    let wh := fitDims img.width img.height thumbBox thumbBox
    resample img wh.1 wh.2
  else
    let mw := spec.maxWidth.getD img.width
    let mh := spec.maxHeight.getD img.height
    let wh := fitDims img.width img.height mw mh
    resample img wh.1 wh.2

/-- Modelled from the spec: the error taxonomy of section 7. -/
inductive ResolveError where
  | notFound
  | staleReference
  | unsupportedFormat
  | corruptArchive
  | memberNotFound
  | decodeError
  | transformError
deriving DecidableEq, Repr

/-- Modelled from the spec: `transform(rawBytes, spec)` — an identity
passthrough (no decode, no re-encode, signature-sniffed content type)
for the default spec; otherwise decode, resize/thumbnail, re-encode at
the target encoding. -/
def transform (raw : List Nat) (spec : TransformSpec) :
    Except ResolveError (List Nat × String) :=
  if spec.isDefault then .ok (raw, sniffContentType raw)
  else
    match decodeImage raw with
    | none => .error .decodeError
    | some img =>
      let out := transformImage img spec
      let magic := magicOfEncoding img spec.targetEncoding
      .ok (encodeImage out magic, contentTypeOfMagic magic)

/-- An on-disk file: its bytes and its modification time (its size is
`bytes.length`). -/
structure FileRec where
  bytes : List Nat
  mtime : Nat
deriving DecidableEq, Repr

/-- The filesystem visible to the core: paths to file records. -/
abbrev FileSystem := List (String × FileRec)

/-- Modelled from the spec: the kind of a `SourceRef`. -/
inductive SourceKind where
  | plainFile
  | archived
deriving DecidableEq, Repr

/-- Modelled from the spec: `SourceRef { kind, path, member? }`,
identifying one page image's origin. -/
structure SourceRef where
  kind : SourceKind
  path : String
  member : Option String
deriving DecidableEq, Repr

/-- One-byte signatures of the four supported container formats
(format detection is by signature, not extension). -/
def archiveMagics : List Nat := [80, 82, 55, 31]

/-- Modelled from the spec: signature sniffing for archives. -/
def isSupportedArchive (bytes : List Nat) : Bool :=
  match bytes with
  | m :: _ => archiveMagics.contains m
  | [] => false

/-- Modelled from the spec: the uniform member table of a container —
after the signature byte, members are serialized as
`nameLength, name…, dataLength, data…`.  Fuel-driven so the parser is
total on malformed input. -/
def parseMembers : Nat → List Nat → List (String × List Nat)
  | 0, _ => []
  | _ + 1, [] => []
  | fuel + 1, nameLen :: rest =>
    let nameCodes := rest.take nameLen
    match rest.drop nameLen with
    | [] => []
    | dataLen :: rest2 =>
      (String.mk (nameCodes.map Char.ofNat), rest2.take dataLen) ::
        parseMembers fuel (rest2.drop dataLen)

/-- Member table of an archive's bytes. -/
def archiveMembers (bytes : List Nat) : List (String × List Nat) :=
  parseMembers bytes.length (bytes.drop 1)

/-- Modelled from the spec: the Container Reader —
`read(ref) -> bytes | ReadError`; plain files are read whole, archive
members are located by exact name in a signature-detected container. -/
def readSource (fs : FileSystem) (ref : SourceRef) :
    Except ResolveError (List Nat) :=
  match assocFind fs ref.path with
  | none => .error .staleReference
  | some f =>
    match ref.kind with
    | .plainFile => .ok f.bytes
    | .archived =>
      match ref.member with
      | none => .error .memberNotFound
      | some m =>
        if isSupportedArchive f.bytes then
          match assocFind (archiveMembers f.bytes) m with
          | some d => .ok d
          | none => .error .memberNotFound
        else .error .unsupportedFormat

/-- Modelled from the spec: a `Fingerprint` is a deterministic key
derived from `(SourceRef, TransformSpec, source mtime+size)`. -/
structure Fingerprint where
  ref : SourceRef
  spec : TransformSpec
  mtime : Nat
  size : Nat
deriving DecidableEq, Repr

/-- The fingerprint of a request, `none` when the source path is gone
(a stale reference, checked lazily at read time). -/
def fingerprint (fs : FileSystem) (ref : SourceRef) (spec : TransformSpec) :
    Option Fingerprint :=
  (assocFind fs ref.path).map fun f => ⟨ref, spec, f.mtime, f.bytes.length⟩

/-- Modelled from the spec: a `CacheEntry` — bytes, content type, size
and last-access time. -/
structure CacheEntry where
  bytes : List Nat
  contentType : String
  sizeBytes : Nat
  lastAccessed : Nat
deriving DecidableEq, Repr

/-- Modelled from the spec: the Cache Store — entries keyed by
fingerprint plus the configured byte budget. -/
structure CacheStore where
  entries : List (Fingerprint × CacheEntry)
  budget : Nat
deriving DecidableEq, Repr

/-- Total size in bytes of a set of cache entries. -/
def entriesSize (l : List (Fingerprint × CacheEntry)) : Nat :=
  (l.map fun e => e.2.sizeBytes).sum

/-- Total on-disk size of the cache. -/
def totalCacheSize (c : CacheStore) : Nat := entriesSize c.entries

/-- Update `lastAccessed` of the entry under `fp` (the touch on every
cache hit). -/
def touchEntry (entries : List (Fingerprint × CacheEntry))
    (fp : Fingerprint) (now : Nat) : List (Fingerprint × CacheEntry) :=
  entries.map fun e =>
    if e.1 = fp then (e.1, { e.2 with lastAccessed := now }) else e

/-- Modelled from the spec: `get(fingerprint)` — a hit returns the entry
and touches its last-access time. -/
def cacheGet (c : CacheStore) (fp : Fingerprint) (now : Nat) :
    Option CacheEntry × CacheStore :=
  match assocFind c.entries fp with
  | none => (none, c)
  | some e => (some e, { c with entries := touchEntry c.entries fp now })

/-- Insert an entry into a list kept ascending by `lastAccessed`. -/
def insertByLA (x : Fingerprint × CacheEntry) :
    List (Fingerprint × CacheEntry) → List (Fingerprint × CacheEntry)
  | [] => [x]
  | y :: t =>
    if x.2.lastAccessed ≤ y.2.lastAccessed then x :: y :: t
    else y :: insertByLA x t

/-- Sort cache entries ascending by `lastAccessed` (least recently
accessed first). -/
def sortByLA : List (Fingerprint × CacheEntry) →
    List (Fingerprint × CacheEntry)
  | [] => []
  | x :: t => insertByLA x (sortByLA t)

/-- Drop least-recently-accessed entries from the front of an ascending
list until the total size fits the budget. -/
def dropUntilFit (budget : Nat) : List (Fingerprint × CacheEntry) →
    List (Fingerprint × CacheEntry)
  | [] => []
  | x :: t => if entriesSize (x :: t) ≤ budget then x :: t
    else dropUntilFit budget t

/-- Modelled from the spec: `evictIfOverBudget()` — evict
least-recently-accessed first until the total size is back within
budget. -/
def evictIfOverBudget (c : CacheStore) : CacheStore :=
  { c with entries := dropUntilFit c.budget (sortByLA c.entries) }

/-- The entry list after a raw `put` (replace any previous entry of the
same fingerprint), before eviction runs. -/
def cachePutRaw (c : CacheStore) (fp : Fingerprint) (bytes : List Nat)
    (ct : String) (now : Nat) : CacheStore :=
  { c with
    entries := (fp, ⟨bytes, ct, bytes.length, now⟩) ::
      c.entries.filter fun e => decide (e.1 ≠ fp) }

/-- Modelled from the spec: `put(fingerprint, bytes, contentType)`
followed by the eviction pass that runs after each write. -/
def cachePut (c : CacheStore) (fp : Fingerprint) (bytes : List Nat)
    (ct : String) (now : Nat) : CacheStore :=
  evictIfOverBudget (cachePutRaw c fp bytes ct now)

/-- State threaded through the Resolution Coordinator: the filesystem,
the cache, and a logical clock for access times. -/
structure SysState where
  fs : FileSystem
  cache : CacheStore
  now : Nat
deriving DecidableEq, Repr

/-- The computation performed on a cache miss: Container Reader then
Transform Engine. -/
def readAndTransform (fs : FileSystem) (ref : SourceRef)
    (spec : TransformSpec) : Except ResolveError (List Nat × String) :=
  match readSource fs ref with
  | .error er => .error er
  | .ok raw => transform raw spec

/-- Modelled from the spec: the Resolution Coordinator's `resolve` —
fingerprint the request, serve a cache hit, otherwise read, transform,
and cache the result. -/
def resolve (ref : SourceRef) (spec : TransformSpec) (st : SysState) :
    Except ResolveError (List Nat × String) × SysState :=
  match fingerprint st.fs ref spec with
  | none => (.error .staleReference, st)
  | some fp =>
    match cacheGet st.cache fp st.now with
    | (some e, c2) =>
      (.ok (e.bytes, e.contentType),
        { st with cache := c2, now := st.now + 1 })
    | (none, _) =>
      match readAndTransform st.fs ref spec with
      | .error er => (.error er, st)
      | .ok res =>
        (.ok res,
          { st with
            cache := cachePut st.cache fp res.1 res.2 st.now
            now := st.now + 1 })

/-! ### Single-flight coordinator model

Per-fingerprint view of section 4.5's state machine
`Idle → ComputingInFlight → Cached`: callers arrive; the first becomes
the computer, later arrivals subscribe to the in-flight computation;
at completion the Transform Engine has run once and every subscriber is
handed the same result. -/

/-- Modelled from the spec: per-fingerprint coordinator state — the
cached result (if any), the subscriber list of the in-flight
computation, how often the Transform Engine ran, and results handed to
callers. -/
structure FlightState where
  cached : Option (List Nat × String)
  inflight : List Nat
  engineCalls : Nat
  delivered : List (Nat × (List Nat × String))
deriving DecidableEq, Repr

/-- An event at one fingerprint: a caller arrives, or the in-flight
computation completes. -/
inductive FlightEvent where
  | arrive (caller : Nat)
  | finish
deriving DecidableEq, Repr

/-- Modelled from the spec: one coordinator step.  An arriving caller is
served from cache, else subscribes (becoming the computer when idle);
completion runs the Transform Engine once, publishes the result to all
subscribers, caches it, and clears the in-flight table. -/
def flightStep (res : List Nat × String) (st : FlightState) :
    FlightEvent → FlightState
  | .arrive i =>
    match st.cached with
    | some r => { st with delivered := (i, r) :: st.delivered }
    | none => { st with inflight := st.inflight ++ [i] }
  | .finish =>
    match st.inflight with
    | [] => st
    | subs =>
      { st with
        engineCalls := st.engineCalls + 1
        cached := some res
        delivered := subs.map (fun i => (i, res)) ++ st.delivered
        inflight := [] }

/-- The cold per-fingerprint state: nothing cached, nothing in
flight. -/
def coldFlight : FlightState := ⟨none, [], 0, []⟩

/-- Run a sequence of events against the cold state. -/
def runFlight (res : List Nat × String) (evs : List FlightEvent) :
    FlightState :=
  evs.foldl (flightStep res) coldFlight

/-! ### Concrete sample data for witnesses -/

/-- A sample source file: a 2×2 PNG-signature image. -/
def sampleFS : FileSystem :=
  [("library/one/001.png", ⟨[1, 2, 2, 9, 8, 7, 6], 100⟩)]

/-- A sample plain source reference. -/
def sampleRef : SourceRef := ⟨.plainFile, "library/one/001.png", none⟩

/-- A sample coordinator state with an empty cache. -/
def sampleState : SysState := ⟨sampleFS, ⟨[], 1000⟩, 0⟩

/-- A sample fingerprint for the cache-eviction witness. -/
def fpA : Fingerprint := ⟨sampleRef, defaultSpec, 100, 7⟩

/-- A second sample fingerprint, differing in the spec. -/
def fpB : Fingerprint :=
  ⟨sampleRef, { defaultSpec with thumbnail := true }, 100, 7⟩

/-- A sample cache holding one six-byte entry under a ten-byte
budget. -/
def sampleCache : CacheStore :=
  ⟨[(fpA, ⟨[1, 1, 1, 1, 1, 1], "image/png", 6, 5⟩)], 10⟩

/-- A 400-pixel-wide decoded source image (PNG signature). -/
def sampleImage : RawImage := ⟨1, 400, 1, List.replicate 400 0⟩

/-- A resize request far wider than the source: `width=5000`. -/
def sampleSpecResize : TransformSpec := ⟨some 5000, none, none, false, .original⟩

end MangaReader

namespace MangaReader

/-! ## Theorems: C7, C8, C10 -/

theorem collectParams_go (entries : List (String × Option String))
    (acc : List (String × String)) :
    entries.foldl
      (fun acc kv =>
        match kv.2 with
        | some v => acc ++ [(kv.1, v)]
        | none => acc)
      acc = acc ++ collectParams entries := by
  induction entries generalizing acc with
  | nil => simp [collectParams]
  | cons kv t ih =>
    rcases kv with ⟨k, v⟩
    cases v with
    | none => simpa [collectParams] using ih acc
    | some v =>
      simp only [collectParams, List.foldl_cons, List.nil_append]
      rw [ih, ih [(k, v)]]
      simp

theorem collectParams_eq_definedParams (o : ImageOptions) :
    collectParams o.entries = definedParams o := by
  rcases o with ⟨w, h, q, t⟩
  cases w <;> cases h <;> cases q <;> cases t <;>
    simp [ImageOptions.entries, definedParams, collectParams,
      collectParams_go]

/-- C7: `getPageImageUrl` builds `base + "/images/{m}/{c}/{p}"` followed by
a query string listing exactly the defined, non-null options rendered via
`toString`, and no query string at all when no option is set. -/
theorem getPageImageUrl_spec (m c p : Int) (o : ImageOptions) :
    getPageImageUrl m c p o =
      apiBaseURL ++ "/images/" ++ toString m ++ "/" ++ toString c ++ "/" ++
        toString p ++
        (if definedParams o = [] then ""
         else "?" ++ queryToString (definedParams o)) ∧
    (o = ImageOptions.empty → definedParams o = []) := by
  constructor
  · show getPageImageUrl m c p o = _
    rw [getPageImageUrl]
    rw [collectParams_eq_definedParams]
    rcases o with ⟨w, h, q, t⟩
    cases w <;> cases h <;> cases q <;> cases t <;>
      simp [definedParams, queryToString, String.intercalate,
        ImageOptions.empty, String.append_assoc] <;> rfl
  · rintro rfl
    rfl

/-- Witness for C7 at concrete inputs, including the no-options case. -/
theorem getPageImageUrl_spec_witness :
    getPageImageUrl 1 2 3 ⟨some 800, none, some 85, none⟩ =
      apiBaseURL ++ "/images/" ++ toString (1 : Int) ++ "/" ++
        toString (2 : Int) ++ "/" ++ toString (3 : Int) ++
        (if definedParams ⟨some 800, none, some 85, none⟩ = [] then ""
         else "?" ++ queryToString (definedParams
           ⟨some 800, none, some 85, none⟩)) ∧
    definedParams ImageOptions.empty = [] :=
  ⟨(getPageImageUrl_spec 1 2 3 ⟨some 800, none, some 85, none⟩).1,
    (getPageImageUrl_spec 1 2 3 ImageOptions.empty).2 rfl⟩

/-- C8: `getMangaProgress` returns `null` exactly when the request fails
with a 404 `ApiError`; any other error propagates unchanged; a success
returns the parsed progress. -/
theorem getMangaProgress_spec (out : FetchOutcome ReadingProgress) :
    (getMangaProgress out = .ok none ↔
      ∃ e, request out = .error e ∧ e.status = 404) ∧
    (∀ e, request out = .error e → e.status ≠ 404 →
      getMangaProgress out = .error e) ∧
    (∀ p, request out = .ok p → getMangaProgress out = .ok (some p)) := by
  refine ⟨?_, ?_, ?_⟩
  · constructor
    · intro h
      cases hreq : request out with
      | ok p => simp [getMangaProgress, hreq] at h
      | error e =>
        refine ⟨e, rfl, ?_⟩
        by_contra hne
        simp [getMangaProgress, hreq, hne] at h
    · rintro ⟨e, hreq, h404⟩
      simp [getMangaProgress, hreq, h404]
  · intro e hreq hne
    simp [getMangaProgress, hreq, hne]
  · intro p hreq
    simp [getMangaProgress, hreq]

/-- Witness for C8: a 404 yields `null`, a 500 propagates, a success
parses. -/
theorem getMangaProgress_spec_witness :
    getMangaProgress (.httpError 404 "not found") = .ok none ∧
    getMangaProgress (.httpError 500 "boom") = .error ⟨"boom", 500⟩ ∧
    getMangaProgress (.networkFailure "down") = .error ⟨"down", 0⟩ :=
  ⟨(getMangaProgress_spec (.httpError 404 "not found")).1.mpr
      ⟨⟨"not found", 404⟩, rfl, rfl⟩,
    (getMangaProgress_spec (.httpError 500 "boom")).2.1
      ⟨"boom", 500⟩ rfl (by decide),
    (getMangaProgress_spec (.networkFailure "down")).2.1
      ⟨"down", 0⟩ rfl (by decide)⟩

theorem applyZoom_bounds (z : ℚ) (op : ZoomOp)
    (hlo : 1 / 2 ≤ z) (hhi : z ≤ 3) :
    1 / 2 ≤ applyZoom z op ∧ applyZoom z op ≤ 3 := by
  have hz : (0 : ℚ) ≤ z := le_trans (by norm_num) hlo
  cases op with
  | zoomIn =>
    refine ⟨le_min ?_ (by norm_num), min_le_right _ _⟩
    nlinarith
  | zoomOut =>
    refine ⟨le_max_right _ _, max_le ?_ (by norm_num)⟩
    rw [div_le_iff₀ (by norm_num)]
    nlinarith
  | reset =>
    exact ⟨by norm_num [applyZoom], by norm_num [applyZoom]⟩

theorem runZoom_go (ops : List ZoomOp) (z : ℚ)
    (hlo : 1 / 2 ≤ z) (hhi : z ≤ 3) :
    1 / 2 ≤ ops.foldl applyZoom z ∧ ops.foldl applyZoom z ≤ 3 := by
  induction ops generalizing z with
  | nil => exact ⟨hlo, hhi⟩
  | cons op t ih =>
    obtain ⟨h1, h2⟩ := applyZoom_bounds z op hlo hhi
    simpa using ih (applyZoom z op) h1 h2

/-- C10: starting from zoom level `1`, every sequence of `zoomIn`,
`zoomOut`, `resetZoom` operations keeps the zoom level within
`[0.5, 3]`. -/
theorem runZoom_bounds (ops : List ZoomOp) :
    1 / 2 ≤ runZoom ops ∧ runZoom ops ≤ 3 :=
  runZoom_go ops 1 (by norm_num) (by norm_num)

/-! ## Theorems: C9 -/

theorem valAux_digitsAux (n : Nat) : valAux (digitsAux n) = n := by
  induction n using Nat.strong_induction_on with
  | _ n ih =>
    rcases n with _ | m
    · simp [digitsAux, valAux]
    · rw [digitsAux]
      simp only [valAux]
      rw [ih ((m + 1) / 10) (Nat.div_lt_self (Nat.succ_pos m) (by norm_num))]
      omega

theorem keyVal_digitsOf (n : Nat) : keyVal (digitsOf n) = n := by
  by_cases h : n = 0
  · subst h; simp [digitsOf, keyVal, valAux]
  · rw [digitsOf, if_neg h, keyVal, List.reverse_reverse, valAux_digitsAux]

theorem digitsOf_inj {a b : Nat} (h : digitsOf a = digitsOf b) : a = b := by
  have := congrArg keyVal h
  rwa [keyVal_digitsOf, keyVal_digitsOf] at this

theorem digitsAux_mem {n d : Nat} (h : d ∈ digitsAux n) :
    48 ≤ d ∧ d ≤ 57 := by
  induction n using Nat.strong_induction_on with
  | _ n ih =>
    rcases n with _ | m
    · simp [digitsAux] at h
    · rw [digitsAux] at h
      rcases List.mem_cons.mp h with h1 | h1
      · subst h1
        have : (m + 1) % 10 < 10 := Nat.mod_lt _ (by norm_num)
        omega
      · exact ih ((m + 1) / 10)
          (Nat.div_lt_self (Nat.succ_pos m) (by norm_num)) h1

theorem digitsOf_mem {n d : Nat} (h : d ∈ digitsOf n) :
    48 ≤ d ∧ d ≤ 57 := by
  by_cases h0 : n = 0
  · subst h0; simp [digitsOf] at h; omega
  · rw [digitsOf, if_neg h0, List.mem_reverse] at h
    exact digitsAux_mem h

theorem digitsOf_ne_nil (n : Nat) : digitsOf n ≠ [] := by
  by_cases h0 : n = 0
  · subst h0; simp [digitsOf]
  · rw [digitsOf, if_neg h0]
    intro hnil
    have := congrArg List.length hnil
    rw [List.length_reverse] at this
    have h1 : digitsAux n = [] := List.length_eq_zero.mp this
    have h2 := valAux_digitsAux n
    rw [h1] at h2
    exact h0 (h2.symm.trans rfl)

theorem lexLe_append_left (p a b : List Nat) :
    lexLe (p ++ a) (p ++ b) = lexLe a b := by
  induction p with
  | nil => rfl
  | cons x t ih => simp [lexLe, ih]

theorem lexLe_lower_digits {e : Nat} {rest : List Nat} (h : 48 ≤ e) :
    lexLe [48] (e :: rest) = true := by
  rw [lexLe]
  rcases Nat.lt_or_ge 48 e with hlt | hge
  · rw [if_pos hlt]
  · have : 48 = e := le_antisymm h hge
    rw [if_neg (by omega), if_pos this, lexLe]

theorem lexLe_upper_digits {e m : Nat} {rest : List Nat} (h : e < m) :
    lexLe (e :: rest) [m] = true := by
  rw [lexLe, if_pos h]

/-- Every page key of chapter `c` lies inside the deletion range. -/
theorem pageKey_in_range (c i : Nat) :
    inChapterRange c (pageKey c i) = true := by
  rw [inChapterRange, Bool.and_eq_true]
  have hkey : pageKey c i = (digitsOf c ++ [underscoreCU]) ++ digitsOf i := by
    simp [pageKey]
  constructor
  · have hlow : rangeLower c = (digitsOf c ++ [underscoreCU]) ++ [48] := by
      simp [rangeLower]
    rw [hlow, hkey, lexLe_append_left]
    obtain ⟨e, rest, hcons⟩ :
        ∃ e rest, digitsOf i = e :: rest := by
      cases hd : digitsOf i with
      | nil => exact absurd hd (digitsOf_ne_nil i)
      | cons e rest => exact ⟨e, rest, rfl⟩
    rw [hcons]
    exact lexLe_lower_digits (digitsOf_mem (hcons ▸ List.mem_cons_self e rest)).1
  · have hup : rangeUpper c = (digitsOf c ++ [underscoreCU]) ++ [maxCU] := by
      simp [rangeUpper]
    rw [hup, hkey, lexLe_append_left]
    obtain ⟨e, rest, hcons⟩ :
        ∃ e rest, digitsOf i = e :: rest := by
      cases hd : digitsOf i with
      | nil => exact absurd hd (digitsOf_ne_nil i)
      | cons e rest => exact ⟨e, rest, rfl⟩
    rw [hcons]
    refine lexLe_upper_digits ?_
    have := (digitsOf_mem (hcons ▸ List.mem_cons_self e rest)).2
    rw [maxCU]; omega

/-- Two digit strings bracketed by the same `_`-range must be equal: the
core of the claim that the range captures no foreign chapter. -/
theorem digit_range_forces_eq (d : List Nat) :
    ∀ e t, (∀ x ∈ d, x ≤ 57) → (∀ y ∈ e, y ≤ 57) →
    lexLe (d ++ [underscoreCU, 48]) (e ++ underscoreCU :: t) = true →
    lexLe (e ++ underscoreCU :: t) (d ++ [underscoreCU, maxCU]) = true →
    e = d := by
  induction d with
  | nil =>
    intro e t _ he h1 h2
    cases e with
    | nil => rfl
    | cons y e2 =>
      exfalso
      have hy : y ≤ 57 := he y (List.mem_cons_self y e2)
      rw [List.nil_append, List.cons_append, lexLe, underscoreCU] at h1
      rw [if_neg (by omega), if_neg (by omega)] at h1
      exact Bool.false_ne_true h1
  | cons x d2 ih =>
    intro e t hd he h1 h2
    cases e with
    | nil =>
      exfalso
      have hx : x ≤ 57 := hd x (List.mem_cons_self x d2)
      rw [List.nil_append, List.cons_append, lexLe, underscoreCU] at h2
      rw [if_neg (by omega), if_neg (by omega)] at h2
      exact Bool.false_ne_true h2
    | cons y e2 =>
      have hx : x ≤ 57 := hd x (List.mem_cons_self x d2)
      have hy : y ≤ 57 := he y (List.mem_cons_self y e2)
      rw [List.cons_append, List.cons_append, lexLe] at h1 h2
      rcases Nat.lt_trichotomy x y with hlt | heq | hgt
      · exfalso
        rw [if_neg (by omega), if_neg (by omega)] at h2
        exact Bool.false_ne_true h2
      · subst heq
        rw [if_neg (by omega), if_pos rfl] at h1 h2
        have := ih e2 t (fun z hz => hd z (List.mem_cons_of_mem _ hz))
          (fun z hz => he z (List.mem_cons_of_mem _ hz)) h1 h2
        rw [this]
      · exfalso
        rw [if_neg (by omega), if_neg (by omega)] at h1
        exact Bool.false_ne_true h1

/-- A page key of a different chapter never lies in the deletion range. -/
theorem pageKey_not_in_range {c c2 : Nat} (hne : c2 ≠ c) (i : Nat) :
    inChapterRange c (pageKey c2 i) = false := by
  by_contra h
  rw [Bool.not_eq_false, inChapterRange, Bool.and_eq_true] at h
  obtain ⟨h1, h2⟩ := h
  rw [rangeLower] at h1
  rw [rangeUpper] at h2
  rw [pageKey] at h1 h2
  have heq := digit_range_forces_eq (digitsOf c) (digitsOf c2) (digitsOf i)
    (fun x hx => (digitsOf_mem hx).2) (fun y hy => (digitsOf_mem hy).2) h1 h2
  exact hne (digitsOf_inj heq)

theorem assocFind_filter_keep {α β : Type} [DecidableEq α]
    (p : α × β → Bool) (l : List (α × β)) (k : α)
    (hk : ∀ v, p (k, v) = true) :
    assocFind (l.filter p) k = assocFind l k := by
  induction l with
  | nil => rfl
  | cons kv t ih =>
    rcases kv with ⟨k0, v0⟩
    by_cases hkey : k0 = k
    · subst hkey
      rw [List.filter_cons, hk v0]
      simp [assocFind, ih]
    · rw [List.filter_cons]
      cases hp : p (k0, v0) with
      | true => simp [assocFind, hkey, ih]
      | false => simp [assocFind, hkey, ih]

theorem assocFind_filter_drop {α β : Type} [DecidableEq α]
    (p : α × β → Bool) (l : List (α × β)) (k : α)
    (hk : ∀ v, p (k, v) = false) :
    assocFind (l.filter p) k = none := by
  induction l with
  | nil => rfl
  | cons kv t ih =>
    rcases kv with ⟨k0, v0⟩
    by_cases hkey : k0 = k
    · subst hkey
      rw [List.filter_cons, hk v0]
      simpa using ih
    · rw [List.filter_cons]
      cases hp : p (k0, v0) with
      | true => simp [assocFind, hkey, ih]
      | false => simpa using ih

/-- C9: `deleteChapter chapterId` removes the chapter record with that id
and every page blob saved by `savePage` for that chapter, while chapter
records with a different id and page blobs of other chapters are untouched:
the key range `` [`${chapterId}_0`, `${chapterId}_￿`] `` neither misses
a page of that chapter nor captures a page of another chapter. -/
theorem deleteChapter_spec (st : OfflineState) (c : Nat) :
    assocFind (deleteChapter st c).chapters c = none ∧
    (∀ i, getPage (deleteChapter st c) c i = none) ∧
    (∀ c2, c2 ≠ c →
      assocFind (deleteChapter st c).chapters c2 =
        assocFind st.chapters c2) ∧
    (∀ c2 i, c2 ≠ c →
      getPage (deleteChapter st c) c2 i = getPage st c2 i) := by
  refine ⟨?_, ?_, ?_, ?_⟩
  · exact assocFind_filter_drop _ st.chapters c (fun v => by simp)
  · intro i
    exact assocFind_filter_drop _ st.pages (pageKey c i)
      (fun v => by simp [pageKey_in_range c i])
  · intro c2 hne
    exact assocFind_filter_keep _ st.chapters c2
      (fun v => by simp [hne])
  · intro c2 i hne
    exact assocFind_filter_keep _ st.pages (pageKey c2 i)
      (fun v => by simp [pageKey_not_in_range hne i])

/-- Witness for C9 on the concrete database `sampleOffline`: deleting
chapter `1` drops its page and chapter record and leaves chapter `12`
(whose keys sort inside no foreign range) untouched. -/
theorem deleteChapter_spec_witness :
    getPage (deleteChapter sampleOffline 1) 1 0 = none ∧
    assocFind (deleteChapter sampleOffline 1).chapters 1 = none ∧
    getPage (deleteChapter sampleOffline 1) 12 0 = getPage sampleOffline 12 0 ∧
    assocFind (deleteChapter sampleOffline 1).chapters 12 =
      assocFind sampleOffline.chapters 12 :=
  ⟨(deleteChapter_spec sampleOffline 1).2.1 0,
    (deleteChapter_spec sampleOffline 1).1,
    (deleteChapter_spec sampleOffline 1).2.2.2 12 0 (by decide),
    (deleteChapter_spec sampleOffline 1).2.2.1 12 (by decide)⟩

/-! ## Theorems: C5 (identity passthrough) and C6 (no upscaling) -/

/-- C5: with the default `TransformSpec` the transform is an identity
passthrough — the output bytes are exactly the input bytes, nothing is
decoded or re-encoded, and the content type is sniffed from the raw
bytes' signature. -/
theorem transform_default_passthrough (raw : List Nat) :
    transform raw defaultSpec = .ok (raw, sniffContentType raw) := by
  rfl

theorem fitDims_le (w h mw mh : Nat) (hw : 0 < w) (hh : 0 < h) :
    (fitDims w h mw mh).1 ≤ w ∧ (fitDims w h mw mh).2 ≤ h ∧
    (fitDims w h mw mh).1 ≤ mw ∧ (fitDims w h mw mh).2 ≤ mh := by
  rw [fitDims]
  split
  next hcond => exact ⟨le_refl w, le_refl h, hcond.1, hcond.2⟩
  next hcond =>
    push_neg at hcond
    split
    next hbr =>
      have hmw : mw ≤ w := by
        by_contra hnot
        push_neg at hnot
        have hmh : mh < h := hcond (by omega)
        nlinarith
      have hdiv_h : h * mw / w ≤ h := by
        calc h * mw / w ≤ h * w / w :=
              Nat.div_le_div_right (Nat.mul_le_mul_left h hmw)
          _ = h := Nat.mul_div_cancel h hw
      have hdiv_mh : h * mw / w ≤ mh := by
        have hswap : h * mw ≤ mh * w := by
          rw [Nat.mul_comm h mw]; exact hbr
        calc h * mw / w ≤ mh * w / w := Nat.div_le_div_right hswap
          _ = mh := Nat.mul_div_cancel mh hw
      exact ⟨hmw, hdiv_h, le_refl mw, hdiv_mh⟩
    next hbr =>
      push_neg at hbr
      have hmh : mh ≤ h := by
        by_contra hnot
        push_neg at hnot
        by_cases hwle : w ≤ mw
        · have := hcond hwle
          omega
        · push_neg at hwle
          nlinarith
      have hdiv_w : w * mh / h ≤ w := by
        calc w * mh / h ≤ w * h / h :=
              Nat.div_le_div_right (Nat.mul_le_mul_left w hmh)
          _ = w := Nat.mul_div_cancel w hh
      have hdiv_mw : w * mh / h ≤ mw := by
        have hswap : w * mh ≤ mw * h := by
          rw [Nat.mul_comm w mh]; exact le_of_lt hbr
        calc w * mh / h ≤ mw * h / h := Nat.div_le_div_right hswap
          _ = mw := Nat.mul_div_cancel mw hh
      exact ⟨hdiv_w, hmh, hdiv_mw, le_refl mh⟩

/-- C6: a non-thumbnail transform with size limits set fits the image
within the requested maxima while preserving the no-upscaling bound —
the output's width and height never exceed the original's. -/
theorem transformImage_no_upscale (img : RawImage) (spec : TransformSpec)
    (hw : 0 < img.width) (hh : 0 < img.height)
    (ht : spec.thumbnail = false) :
    (transformImage img spec).width ≤ img.width ∧
    (transformImage img spec).height ≤ img.height ∧
    (∀ mw, spec.maxWidth = some mw →
      (transformImage img spec).width ≤ mw) ∧
    (∀ mh, spec.maxHeight = some mh →
      (transformImage img spec).height ≤ mh) := by
  obtain ⟨h1, h2, h3, h4⟩ := fitDims_le img.width img.height
    (spec.maxWidth.getD img.width) (spec.maxHeight.getD img.height) hw hh
  rw [transformImage, ht]
  refine ⟨?_, ?_, ?_, ?_⟩
  · simpa [resample] using h1
  · simpa [resample] using h2
  · intro mw hmw
    rw [hmw] at h3
    rw [hmw]
    simpa [resample] using h3
  · intro mh hmh
    rw [hmh] at h4
    rw [hmh]
    simpa [resample] using h4

/-- Witness for C6: requesting `width=5000` on the 400-pixel-wide sample
source returns an image no wider than 400 pixels. -/
theorem transformImage_no_upscale_witness :
    (transformImage sampleImage sampleSpecResize).width ≤ 400 ∧
    (transformImage sampleImage sampleSpecResize).width ≤ 5000 :=
  ⟨(transformImage_no_upscale sampleImage sampleSpecResize
      (by decide) (by decide) (by decide)).1,
    (transformImage_no_upscale sampleImage sampleSpecResize
      (by decide) (by decide) (by decide)).2.2.1 5000 rfl⟩

/-! ## Theorems: C2 (single-flight) -/

theorem flight_arrivals (res : List Nat × String) (ids : List Nat)
    (l : List Nat) (n : Nat) (d : List (Nat × (List Nat × String))) :
    (ids.map FlightEvent.arrive).foldl (flightStep res) ⟨none, l, n, d⟩ =
      ⟨none, l ++ ids, n, d⟩ := by
  induction ids generalizing l with
  | nil => simp
  | cons i t ih =>
    simp only [List.map_cons, List.foldl_cons]
    rw [show flightStep res ⟨none, l, n, d⟩ (.arrive i) =
      (⟨none, l ++ [i], n, d⟩ : FlightState) from rfl]
    rw [ih (l ++ [i])]
    simp

/-- C2: when `N ≥ 1` callers all arrive at a cold fingerprint before the
computation completes, the Transform Engine runs exactly once and every
caller is delivered the same result (later arrivals subscribe to the
in-flight computation instead of starting a new one). -/
theorem singleFlight_once (res : List Nat × String) (ids : List Nat)
    (hne : ids ≠ []) :
    (runFlight res
      (ids.map FlightEvent.arrive ++ [FlightEvent.finish])).engineCalls
        = 1 ∧
    ∀ i ∈ ids, (i, res) ∈
      (runFlight res
        (ids.map FlightEvent.arrive ++ [FlightEvent.finish])).delivered := by
  rw [runFlight, List.foldl_append]
  rw [show (ids.map FlightEvent.arrive).foldl (flightStep res) coldFlight =
    (⟨none, [] ++ ids, 0, []⟩ : FlightState) from
      flight_arrivals res ids [] 0 []]
  rcases ids with _ | ⟨i, t⟩
  · exact absurd rfl hne
  · constructor
    · rfl
    · intro j hj
      show (j, res) ∈ (flightStep res ⟨none, [] ++ i :: t, 0, []⟩
        FlightEvent.finish).delivered
      simp only [List.nil_append, flightStep]
      simp only [List.foldl_cons, List.foldl_nil, List.append_nil]
      exact List.mem_map.mpr ⟨j, hj, rfl⟩

/-- Witness for C2: two concurrent callers, one engine call, both served
the same bytes. -/
theorem singleFlight_once_witness :
    (runFlight ([9], "image/png")
      ([4, 7].map FlightEvent.arrive ++ [FlightEvent.finish])).engineCalls
        = 1 ∧
    ((4 : Nat), (([9] : List Nat), "image/png")) ∈
      (runFlight ([9], "image/png")
        ([4, 7].map FlightEvent.arrive ++ [FlightEvent.finish])).delivered :=
  ⟨(singleFlight_once ([9], "image/png") [4, 7] (by decide)).1,
    (singleFlight_once ([9], "image/png") [4, 7] (by decide)).2 4
      (by decide)⟩

/-! ## Theorems: C4 (bounded eviction, least recently accessed first) -/

theorem dropUntilFit_size (b : Nat) (l : List (Fingerprint × CacheEntry)) :
    entriesSize (dropUntilFit b l) ≤ b := by
  induction l with
  | nil => simp [dropUntilFit, entriesSize]
  | cons x t ih =>
    rw [dropUntilFit]
    split
    next hfit => exact hfit
    next => exact ih

theorem dropUntilFit_subset {b : Nat} {l : List (Fingerprint × CacheEntry)}
    {y : Fingerprint × CacheEntry} (h : y ∈ dropUntilFit b l) : y ∈ l := by
  induction l with
  | nil => simp [dropUntilFit] at h
  | cons x t ih =>
    rw [dropUntilFit] at h
    split at h
    next => exact h
    next => exact List.mem_cons_of_mem x (ih h)

theorem insertByLA_mem (x y : Fingerprint × CacheEntry)
    (l : List (Fingerprint × CacheEntry)) :
    y ∈ insertByLA x l ↔ y = x ∨ y ∈ l := by
  induction l with
  | nil => simp [insertByLA]
  | cons z t ih =>
    rw [insertByLA]
    split
    · simp [List.mem_cons]
    · simp only [List.mem_cons, ih]
      tauto

theorem sortByLA_mem (y : Fingerprint × CacheEntry)
    (l : List (Fingerprint × CacheEntry)) :
    y ∈ sortByLA l ↔ y ∈ l := by
  induction l with
  | nil => simp [sortByLA]
  | cons x t ih =>
    rw [sortByLA, insertByLA_mem]
    simp [ih, List.mem_cons]

theorem insertByLA_pairwise (x : Fingerprint × CacheEntry)
    (l : List (Fingerprint × CacheEntry))
    (h : l.Pairwise fun a b => a.2.lastAccessed ≤ b.2.lastAccessed) :
    (insertByLA x l).Pairwise
      fun a b => a.2.lastAccessed ≤ b.2.lastAccessed := by
  induction l with
  | nil => simp [insertByLA]
  | cons y t ih =>
    rw [insertByLA]
    rcases List.pairwise_cons.mp h with ⟨hy, ht⟩
    split
    next hle =>
      refine List.pairwise_cons.mpr ⟨?_, h⟩
      intro z hz
      rcases List.mem_cons.mp hz with rfl | hz2
      · exact hle
      · exact le_trans hle (hy z hz2)
    next hgt =>
      push_neg at hgt
      refine List.pairwise_cons.mpr ⟨?_, ih ht⟩
      intro z hz
      rcases (insertByLA_mem x z t).mp hz with rfl | hz2
      · exact le_of_lt hgt
      · exact hy z hz2

theorem sortByLA_pairwise (l : List (Fingerprint × CacheEntry)) :
    (sortByLA l).Pairwise
      fun a b => a.2.lastAccessed ≤ b.2.lastAccessed := by
  induction l with
  | nil => simp [sortByLA]
  | cons x t ih =>
    rw [sortByLA]
    exact insertByLA_pairwise x _ ih

theorem dropUntilFit_evict_le (b : Nat)
    (l : List (Fingerprint × CacheEntry))
    (hl : l.Pairwise fun a b => a.2.lastAccessed ≤ b.2.lastAccessed) :
    ∀ x ∈ l, x ∉ dropUntilFit b l → ∀ y ∈ dropUntilFit b l,
      x.2.lastAccessed ≤ y.2.lastAccessed := by
  induction l with
  | nil =>
    intro x hx
    exact absurd hx (by simp)
  | cons z t ih =>
    rw [dropUntilFit]
    split
    next =>
      intro x hx hnx
      exact absurd hx hnx
    next =>
      rcases List.pairwise_cons.mp hl with ⟨hz, ht⟩
      intro x hx hnx y hy
      rcases List.mem_cons.mp hx with rfl | hx2
      · exact hz y (dropUntilFit_subset hy)
      · exact ih ht x hx2 hnx y hy

/-- C4: every cache write runs the eviction pass; afterwards the total
cache size is within the configured byte budget, and any entry that was
present before eviction but is gone afterwards was
least-recently-accessed: its last-access time is no later than that of
every surviving entry. -/
theorem cachePut_budget (c : CacheStore) (fp : Fingerprint)
    (bytes : List Nat) (ct : String) (now : Nat) :
    totalCacheSize (cachePut c fp bytes ct now) ≤ c.budget ∧
    ∀ x ∈ (cachePutRaw c fp bytes ct now).entries,
      x ∉ (cachePut c fp bytes ct now).entries →
      ∀ y ∈ (cachePut c fp bytes ct now).entries,
        x.2.lastAccessed ≤ y.2.lastAccessed := by
  constructor
  · exact dropUntilFit_size c.budget
      (sortByLA (cachePutRaw c fp bytes ct now).entries)
  · intro x hx hnx y hy
    have hx2 : x ∈ sortByLA (cachePutRaw c fp bytes ct now).entries :=
      (sortByLA_mem _ _).mpr hx
    exact dropUntilFit_evict_le c.budget _
      (sortByLA_pairwise _) x hx2 hnx y hy

/-- Witness for C4: pushing the sample cache two bytes over its budget
evicts the older six-byte entry, leaving the cache within budget with
the younger entry surviving. -/
theorem cachePut_budget_witness :
    totalCacheSize
      (cachePut sampleCache fpB [2, 2, 2, 2, 2, 2] "image/webp" 7) ≤ 10 ∧
    (5 : Nat) ≤ 7 :=
  ⟨(cachePut_budget sampleCache fpB [2, 2, 2, 2, 2, 2] "image/webp" 7).1,
    (cachePut_budget sampleCache fpB [2, 2, 2, 2, 2, 2] "image/webp" 7).2
      (fpA, ⟨[1, 1, 1, 1, 1, 1], "image/png", 6, 5⟩) (by decide) (by decide)
      (fpB, ⟨[2, 2, 2, 2, 2, 2], "image/webp", 6, 7⟩) (by decide)⟩

/-! ## Theorems: C3 (no mutation of sources) and C1 (determinism) -/

theorem resolve_fs_eq (ref : SourceRef) (spec : TransformSpec)
    (st : SysState) : ((resolve ref spec st).2).fs = st.fs := by
  unfold resolve
  split
  · rfl
  · split
    next => rfl
    next =>
      split
      · rfl
      · rfl

/-- C3: no resolve call — hit, miss-and-transform, or failure — ever
writes to a source path: the whole filesystem, hence every source
file's bytes, mtime and size, is unchanged by `resolve`. -/
theorem resolve_no_mutation (ref : SourceRef) (spec : TransformSpec)
    (st : SysState) :
    ((resolve ref spec st).2).fs = st.fs ∧
    ∀ p, assocFind ((resolve ref spec st).2).fs p = assocFind st.fs p := by
  have h := resolve_fs_eq ref spec st
  exact ⟨h, fun p => by rw [h]⟩

theorem assocFind_touch (entries : List (Fingerprint × CacheEntry))
    (fp : Fingerprint) (now : Nat) :
    assocFind (touchEntry entries fp now) fp =
      (assocFind entries fp).map fun e => { e with lastAccessed := now } := by
  induction entries with
  | nil => rfl
  | cons kv t ih =>
    rcases kv with ⟨k, v⟩
    by_cases hk : k = fp
    · subst hk
      have hstep : touchEntry ((k, v) :: t) k now =
          (k, { v with lastAccessed := now }) :: touchEntry t k now := by
        simp [touchEntry]
      rw [hstep]
      simp [assocFind]
    · have hstep : touchEntry ((k, v) :: t) fp now =
          (k, v) :: touchEntry t fp now := by
        simp [touchEntry, hk]
      rw [hstep]
      simp [assocFind, hk, ih]

theorem assocFind_some_mem {α β : Type} [DecidableEq α]
    {l : List (α × β)} {k : α} {v : β}
    (h : assocFind l k = some v) : (k, v) ∈ l := by
  induction l with
  | nil => simp [assocFind] at h
  | cons kv t ih =>
    rcases kv with ⟨k0, v0⟩
    rw [assocFind] at h
    by_cases hk : k0 = k
    · rw [if_pos hk] at h
      subst hk
      cases h
      exact List.mem_cons_self _ _
    · rw [if_neg hk] at h
      exact List.mem_cons_of_mem _ (ih h)

theorem cachePut_find_eq (c : CacheStore) (fp : Fingerprint)
    (bytes : List Nat) (ct : String) (now : Nat) {e2 : CacheEntry}
    (h : assocFind (cachePut c fp bytes ct now).entries fp = some e2) :
    e2 = ⟨bytes, ct, bytes.length, now⟩ := by
  have hmem : (fp, e2) ∈ dropUntilFit c.budget
      (sortByLA (cachePutRaw c fp bytes ct now).entries) :=
    assocFind_some_mem h
  have hmem2 : (fp, e2) ∈ (cachePutRaw c fp bytes ct now).entries :=
    (sortByLA_mem _ _).mp (dropUntilFit_subset hmem)
  rcases List.mem_cons.mp hmem2 with heq | hmem3
  · exact congrArg Prod.snd heq
  · exfalso
    have := (List.mem_filter.mp hmem3).2
    simp at this

theorem resolve_hit (ref : SourceRef) (spec : TransformSpec)
    (st1 : SysState) (fp : Fingerprint) (e2 : CacheEntry)
    (hfp1 : fingerprint st1.fs ref spec = some fp)
    (hfind1 : assocFind st1.cache.entries fp = some e2) :
    (resolve ref spec st1).1 = .ok (e2.bytes, e2.contentType) := by
  simp only [resolve, hfp1, cacheGet, hfind1]

theorem resolve_miss (ref : SourceRef) (spec : TransformSpec)
    (st1 : SysState) (fp : Fingerprint)
    (hfp1 : fingerprint st1.fs ref spec = some fp)
    (hfind1 : assocFind st1.cache.entries fp = none) :
    (resolve ref spec st1).1 = readAndTransform st1.fs ref spec := by
  simp only [resolve, hfp1, cacheGet, hfind1]
  cases h : readAndTransform st1.fs ref spec <;> simp [h]

/-- C1: resolving the same `(ref, spec)` twice in succession — the
source files being untouched by the first call (`resolve_no_mutation`)
— returns byte-identical output both times, whether the second call is
served from the cache or recomputed by the pure transform. -/
theorem resolve_deterministic (ref : SourceRef) (spec : TransformSpec)
    (st : SysState) :
    (resolve ref spec (resolve ref spec st).2).1 =
      (resolve ref spec st).1 := by
  rcases hfp : fingerprint st.fs ref spec with _ | fp
  · have h1 : resolve ref spec st = (.error .staleReference, st) := by
      simp only [resolve, hfp]
    rw [h1]
    show (resolve ref spec st).1 = _
    rw [h1]
  · rcases hfind : assocFind st.cache.entries fp with _ | e
    · rcases hrt : readAndTransform st.fs ref spec with er | res
      · have h1 : resolve ref spec st = (.error er, st) := by
          simp only [resolve, hfp, cacheGet, hfind, hrt]
        rw [h1]
        show (resolve ref spec st).1 = _
        rw [h1]
      · rcases res with ⟨outB, outCT⟩
        have h1 : resolve ref spec st =
            (.ok (outB, outCT),
              ⟨st.fs, cachePut st.cache fp outB outCT st.now,
                st.now + 1⟩) := by
          simp only [resolve, hfp, cacheGet, hfind, hrt]
        rw [h1]
        show (resolve ref spec
          (⟨st.fs, cachePut st.cache fp outB outCT st.now,
            st.now + 1⟩ : SysState)).1 = Except.ok (outB, outCT)
        rcases hfind2 : assocFind
            (cachePut st.cache fp outB outCT st.now).entries fp with _ | e2
        · rw [resolve_miss ref spec
            ⟨st.fs, cachePut st.cache fp outB outCT st.now, st.now + 1⟩
            fp hfp hfind2]
          exact hrt
        · rw [resolve_hit ref spec
            ⟨st.fs, cachePut st.cache fp outB outCT st.now, st.now + 1⟩
            fp e2 hfp hfind2]
          rw [cachePut_find_eq st.cache fp outB outCT st.now hfind2]
    · have h1 : resolve ref spec st =
          (.ok (e.bytes, e.contentType),
            ⟨st.fs,
              { st.cache with
                entries := touchEntry st.cache.entries fp st.now },
              st.now + 1⟩) := by
        simp only [resolve, hfp, cacheGet, hfind]
      rw [h1]
      show (resolve ref spec
        (⟨st.fs,
          { st.cache with
            entries := touchEntry st.cache.entries fp st.now },
          st.now + 1⟩ : SysState)).1 = Except.ok (e.bytes, e.contentType)
      have hfind2 : assocFind (touchEntry st.cache.entries fp st.now) fp =
          some { e with lastAccessed := st.now } := by
        rw [assocFind_touch, hfind]
        rfl
      rw [resolve_hit ref spec
        ⟨st.fs,
          { st.cache with
            entries := touchEntry st.cache.entries fp st.now },
          st.now + 1⟩
        fp { e with lastAccessed := st.now } hfp hfind2]

end MangaReader
